import Mathlib

/-!
Verification of the temporal alignment and scoring core of the karaoke
pipeline (`preprocess_full.py`, `refine_results.py`).

The Python source works on numpy float64 arrays; we embed the numeric data
as rational numbers (`ℚ`) and numpy arrays as `List ℚ`, keeping every
operation exactly as the source computes it (including literal constants
such as the `1e-8` regularizer).  The two transcendental operations the
scoring path uses, `np.log2` and the square root inside `dtw.distance`,
have no exact rational realization; the corresponding definitions take
them as explicit function parameters (`log2`, `sqrt`), and every theorem
below is proved for arbitrary such functions.

The external `dtaidistance.dtw` library (DTW distance and warping path) is
not part of the repository; it is modelled by `dtwCum` / `dtwWarpingPath`
below: the textbook dynamic-programming recurrence on squared sample
differences with a Sakoe–Chiba band widened by the length difference, and
a backward traceback from the last cell preferring the diagonal
predecessor.  All concrete inputs evaluated in this file have a unique
optimal warping path that any correct DTW implementation returns.
-/

namespace KaraokeSpec2Proof

/-- Sum of squares of a list, `np.sum(v**2)`. -/
def sumSq (l : List ℚ) : ℚ :=
  (l.map (fun x => x * x)).sum

/-- Elementwise subtraction of two parallel arrays. -/
def zipSub (a b : List ℚ) : List ℚ :=
  List.zipWith (fun x y => x - y) a b

/-- Arithmetic mean `np.mean` (empty list yields `0/0 = 0`). -/
def listMean (l : List ℚ) : ℚ :=
  l.sum / l.length

/-- Insert into a sorted list, auxiliary for `sortQ`. -/
def insertSorted (x : ℚ) : List ℚ → List ℚ
  | [] => [x]
  | y :: ys => if x ≤ y then x :: y :: ys else y :: insertSorted x ys

/-- Insertion sort of a rational list (model of `np.sort`). -/
def sortQ (l : List ℚ) : List ℚ :=
  l.foldr insertSorted []

/-- Median of a list, `np.median`: middle element of the sorted list for
odd length, arithmetic mean of the two middle elements for even length. -/
def npMedian (l : List ℚ) : ℚ :=
  let s := sortQ l
  if l.length % 2 = 1 then s.getD (l.length / 2) 0
  else (s.getD (l.length / 2 - 1) 0 + s.getD (l.length / 2) 0) / 2

/-- One-dimensional linear interpolation, `np.interp(x, xp, fp)` for
increasing knots `xp`: values are clamped to `fp.head`/`fp.last` outside
the knot range and linearly interpolated between consecutive knots. -/
def npInterp (x : ℚ) : List ℚ → List ℚ → ℚ
  | [], _ => 0
  | _ :: _, [] => 0
  | [_], f0 :: _ => f0
  | _ :: _ :: _, [f0] => f0
  | x0 :: x1 :: xs, f0 :: f1 :: fs =>
    if x ≤ x0 then f0
    else if x ≤ x1 then f0 + (x - x0) * (f1 - f0) / (x1 - x0)
    else npInterp x (x1 :: xs) (f1 :: fs)

/-- Linear interpolation in the style of `scipy.interpolate.interp1d`
with `bounds_error=False, fill_value=0.0`: zero outside the knot range,
linear interpolation inside. -/
def npInterpZero (x : ℚ) (xp fp : List ℚ) : ℚ :=
  match xp with
  | [] => 0
  | x0 :: _ => if x < x0 ∨ xp.getD (xp.length - 1) 0 < x then 0 else npInterp x xp fp

/-- `np.linspace(start, stop, num)`. -/
def linspace (start stop : ℚ) (num : ℕ) : List ℚ :=
  match num with
  | 0 => []
  | 1 => [start]
  | _ => (List.range num).map (fun i : ℕ => start + (i : ℚ) * (stop - start) / ((num : ℚ) - 1))

/-- Every 10th element of a list (`a[::10]`), auxiliary counter form. -/
def strideTenAux : ℕ → List α → List α
  | _, [] => []
  | 0, x :: xs => x :: strideTenAux 9 xs
  | k + 1, _ :: xs => strideTenAux k xs

/-- Every 10th element of a list, `a[::10]` with the downsample factor 10
of `align_with_dtw`. -/
def strideTen (l : List α) : List α :=
  strideTenAux 0 l

/-- First minimizer of `f` over a list (model of `np.argmin`, which
returns the first index attaining the minimum; here we return the
element itself). -/
def argminFirst (f : α → ℚ) : List α → Option α
  | [] => none
  | x :: xs =>
    match argminFirst f xs with
    | none => some x
    | some y => if f y < f x then some y else some x

/-- Slice `l[i:j]` of a Python list. -/
def pySlice (l : List α) (i j : ℕ) : List α :=
  (l.drop i).take (j - i)

/-- `range(0, stop, step)` of Python for positive `step`. -/
def pythonRange (stop step : ℕ) : List ℕ :=
  (List.range ((stop + step - 1) / step)).map (fun k => k * step)

/-- A piecewise linear alignment segment, `AlignmentSegment` of
`preprocess_full.py`: the affine map `t_ref = a * t_k + b` valid on
karaoke times `[tk_start, tk_end]`, with fit quality `quality`. -/
structure AlignmentSegment where
  tk_start : ℚ
  tk_end : ℚ
  a : ℚ
  b : ℚ
  quality : ℚ
deriving DecidableEq

/-- The affine map of a segment, `AlignmentSegment.map_time`. -/
def AlignmentSegment.mapTime (s : AlignmentSegment) (tk : ℚ) : ℚ :=
  s.a * tk + s.b

/-- Degree-1 least squares fit `np.polyfit(x, y, 1)`, in the closed form
`a = (n·Σxy − Σx·Σy) / (n·Σx² − (Σx)²)`, `b = (Σy − a·Σx) / n` (valid
whenever the x-values are not all equal, the only case exercised here). -/
def polyfit1 (x y : List ℚ) : ℚ × ℚ :=
  let n : ℚ := x.length
  let sx := x.sum
  let sy := y.sum
  let sxy := (List.zipWith (fun u v => u * v) x y).sum
  let sxx := (x.map (fun u => u * u)).sum
  let a := (n * sxy - sx * sy) / (n * sxx - sx * sx)
  (a, (sy - a * sx) / n)

/-- The R² computation shared by both branches of `fit_piecewise_linear`:
`1 - Σ(y − ŷ)² / (Σ(y − mean y)² + 1e-8)`. -/
def rSquared (y ypred : List ℚ) : ℚ :=
  1 - sumSq (zipSub y ypred) / (sumSq (y.map (fun v => v - listMean y)) + 1 / 100000000)

/-- One step of the merge pass of `fit_piecewise_linear` (the body of the
`for seg in segments` loop over the accumulator `merged`). -/
def mergeStep (acc : List AlignmentSegment) (seg : AlignmentSegment) : List AlignmentSegment :=
  match acc.getLast? with
  | none => [seg]
  | some last =>
    if |seg.a - last.a| < 1 / 100 ∧ |seg.b - last.b| < 1 / 10 ∧
        4 / 5 < seg.quality ∧ 4 / 5 < last.quality then
      acc.dropLast ++ [⟨last.tk_start, seg.tk_end, (seg.a + last.a) / 2,
        (seg.b + last.b) / 2, min seg.quality last.quality⟩]
    else
      acc ++ [seg]

/-- The merge pass of `fit_piecewise_linear`: scan the segments in order,
merging each into the last accumulated segment when slope, intercept and
quality are close enough. -/
def mergeSegments (segs : List AlignmentSegment) : List AlignmentSegment :=
  segs.foldl mergeStep []

/-- Merge condition as the specification states it: `|Δslope| < 0.01`,
`|Δintercept| < 0.1`, and both qualities exceed `0.8`. -/
def specShouldMerge (prev cur : AlignmentSegment) : Prop :=
  |cur.a - prev.a| < 1 / 100 ∧ |cur.b - prev.b| < 1 / 10 ∧
    4 / 5 < prev.quality ∧ 4 / 5 < cur.quality

instance (prev cur : AlignmentSegment) : Decidable (specShouldMerge prev cur) := by
  unfold specShouldMerge; infer_instance

/-- Merged segment as the specification states it: span from the previous
segment's start to the current one's end, arithmetic mean of slopes and
intercepts, minimum of the two qualities. -/
def specMergedSegment (prev cur : AlignmentSegment) : AlignmentSegment :=
  ⟨prev.tk_start, cur.tk_end, (prev.a + cur.a) / 2, (prev.b + cur.b) / 2,
    min prev.quality cur.quality⟩

/-- `fit_piecewise_linear(tk, tref, window)`: a single global least-squares
segment when there are fewer than `window` matched pairs, otherwise a
50%-overlapping sliding-window fit followed by the merge pass. -/
def fitPiecewiseLinear (tk tref : List ℚ) (window : ℕ) : List AlignmentSegment :=
  let n := tk.length
  if n < window then
    let ab := polyfit1 tk tref
    let ypred := tk.map (fun x => ab.1 * x + ab.2)
    [⟨tk.getD 0 0, tk.getD (n - 1) 0, ab.1, ab.2, rSquared tref ypred⟩]
  else
    let step := window / 2
    let segs := (pythonRange (n - window + 1) step).map (fun i =>
      let endIdx := min (i + window) n
      let tkWin := pySlice tk i endIdx
      let trefWin := pySlice tref i endIdx
      let ab := polyfit1 tkWin trefWin
      let ypred := tkWin.map (fun x => ab.1 * x + ab.2)
      (⟨tkWin.getD 0 0, tkWin.getD (tkWin.length - 1) 0, ab.1, ab.2,
        rSquared trefWin ypred⟩ : AlignmentSegment))
    mergeSegments segs

/-- Squared sample difference, the per-cell cost used by
`dtaidistance.dtw`. -/
def sqDiff (x y : ℚ) : ℚ :=
  (x - y) * (x - y)

/-- Minimum of two optional costs, where `none` stands for an
unreachable cell (infinite cost). -/
def omin : Option ℚ → Option ℚ → Option ℚ
  | none, y => y
  | some x, none => some x
  | some x, some y => some (min x y)

/-- Cost comparison with `none` as infinity, used by the traceback. -/
def oleq : Option ℚ → Option ℚ → Bool
  | none, none => true
  | none, some _ => false
  | some _, none => true
  | some x, some y => decide (x ≤ y)

/-- Whether cell `(i, j)` is inside the Sakoe–Chiba band of width `w`
widened by the length difference (so that the corner cell is always
reachable, as in `dtaidistance`). -/
def dtwAllowed (la lb w : ℕ) (i j : ℕ) : Bool :=
  decide (((i : ℤ) - j).natAbs ≤ w + ((la : ℤ) - lb).natAbs)

/-- Cumulative DTW cost matrix entry `D(i, j)` over squared differences
(model of the `dtaidistance` dynamic program), computed with explicit
fuel for structural recursion; `none` is an unreachable cell. -/
def dtwCumAux (a b : List ℚ) (w : ℕ) : ℕ → ℕ → ℕ → Option ℚ
  | 0, _, _ => none
  | fuel + 1, i, j =>
    if dtwAllowed a.length b.length w i j then
      match i, j with
      | 0, 0 => some (sqDiff (a.getD 0 0) (b.getD 0 0))
      | i' + 1, 0 =>
        (dtwCumAux a b w fuel i' 0).map (fun c => c + sqDiff (a.getD (i' + 1) 0) (b.getD 0 0))
      | 0, j' + 1 =>
        (dtwCumAux a b w fuel 0 j').map (fun c => c + sqDiff (a.getD 0 0) (b.getD (j' + 1) 0))
      | i' + 1, j' + 1 =>
        (omin (dtwCumAux a b w fuel i' j')
          (omin (dtwCumAux a b w fuel i' (j' + 1)) (dtwCumAux a b w fuel (i' + 1) j'))).map
          (fun c => c + sqDiff (a.getD (i' + 1) 0) (b.getD (j' + 1) 0))
    else none

/-- Cumulative DTW cost `D(i, j)` with sufficient fuel. -/
def dtwCum (a b : List ℚ) (w : ℕ) (i j : ℕ) : Option ℚ :=
  dtwCumAux a b w (i + j + 1) i j

/-- Backward traceback of the optimal warping path from cell `(i, j)`,
preferring the diagonal predecessor on ties (as `dtaidistance` does);
emits the path in ascending order. -/
def dtwTracebackAux (a b : List ℚ) (w : ℕ) : ℕ → ℕ → ℕ → List (ℕ × ℕ)
  | 0, i, j => [(i, j)]
  | _ + 1, 0, 0 => [(0, 0)]
  | fuel + 1, i + 1, 0 => dtwTracebackAux a b w fuel i 0 ++ [(i + 1, 0)]
  | fuel + 1, 0, j + 1 => dtwTracebackAux a b w fuel 0 j ++ [(0, j + 1)]
  | fuel + 1, i + 1, j + 1 =>
    let dd := dtwCum a b w i j
    let du := dtwCum a b w i (j + 1)
    let dl := dtwCum a b w (i + 1) j
    if oleq dd du && oleq dd dl then dtwTracebackAux a b w fuel i j ++ [(i + 1, j + 1)]
    else if oleq du dl then dtwTracebackAux a b w fuel i (j + 1) ++ [(i + 1, j + 1)]
    else dtwTracebackAux a b w fuel (i + 1) j ++ [(i + 1, j + 1)]

/-- Optimal warping path, model of `dtaidistance.dtw.warping_path`: the
monotone index-pair path from `(0, 0)` to the last cell recovered by
traceback of the cumulative cost matrix. -/
def dtwWarpingPath (a b : List ℚ) (w : ℕ) : List (ℕ × ℕ) :=
  if a.length = 0 ∨ b.length = 0 then []
  else dtwTracebackAux a b w (a.length - 1 + (b.length - 1)) (a.length - 1) (b.length - 1)

/-- Final cumulative squared DTW cost between two sequences, the quantity
whose square root `dtaidistance.dtw.distance` returns (unconstrained,
realized by a band wide enough to cover every cell). -/
def dtwDistSq (a b : List ℚ) : ℚ :=
  (dtwCum a b (a.length + b.length) (a.length - 1) (b.length - 1)).getD 0

/-- `align_with_dtw(chroma_k, chroma_ref, times_k, times_ref, band_width)`
of `preprocess_full.py`.  Chroma arrays are represented frame-major (one
inner list per frame); `mean(axis=0)` is the per-frame mean.  Returns
`(tk_aligned, tref_aligned, quality)` exactly as the source builds them —
including the DTW branch, where the source overwrites `tk_aligned` with
the interpolated reference times and sets `tref_aligned = times_k`. -/
def alignWithDtw (chromaK chromaRef : List (List ℚ)) (timesK timesRef : List ℚ)
    (bandWidth : ℚ) : List ℚ × List ℚ × ℚ :=
  if |(timesK.length : ℚ) - (timesRef.length : ℚ)| / (max timesK.length timesRef.length : ℚ)
      < 1 / 10 then
    let indices := linspace 0 ((timesRef.length : ℚ) - 1) timesK.length
    let xp := (List.range timesRef.length).map (fun j : ℕ => (j : ℚ))
    let trefAligned := indices.map (fun x => npInterp x xp timesRef)
    (timesK, trefAligned, 19 / 20)
  else
    let ckDown := strideTen chromaK
    let crDown := strideTen chromaRef
    let tkDown := strideTen timesK
    let trDown := strideTen timesRef
    let window := (bandWidth * (max tkDown.length trDown.length : ℚ)).floor.toNat
    let ckMean := ckDown.map listMean
    let crMean := crDown.map listMean
    let path := dtwWarpingPath ckMean crMean window
    let tkA := path.map (fun p => tkDown.getD p.1 0)
    let trA := path.map (fun p => trDown.getD p.2 0)
    let tkAligned := timesK.map (fun x => npInterp x tkA trA)
    (tkAligned, timesK, 17 / 20)

/-- Pitch confidence threshold `PITCH_CONF_THRESHOLD = 0.3`. -/
def pitchConfThreshold : ℚ := 3 / 10

/-- Minimum note duration `MIN_NOTE_DURATION = 0.2` seconds. -/
def minNoteDuration : ℚ := 1 / 5

/-- A note bin as built by `create_note_bins`. -/
structure NoteBin where
  start : ℚ
  stop : ℚ
  f0 : ℚ
  tol_cents : ℚ
deriving DecidableEq

/-- One iteration of the run segmentation loop of `create_note_bins`:
the state is `(in_segment start, recorded runs)`; a run is recorded as a
half-open index pair `(start, i)` when a voiced stretch ends. -/
def voicedRunsStep (v : List Bool) (st : Option ℕ × List (ℕ × ℕ)) (i : ℕ) :
    Option ℕ × List (ℕ × ℕ) :=
  if v.getD i false then
    match st.1 with
    | none => (some i, st.2)
    | some s => (some s, st.2)
  else
    match st.1 with
    | none => (none, st.2)
    | some s => (none, st.2 ++ [(s, i)])

/-- The voiced/unvoiced run segmentation loop of `create_note_bins`:
fold `voicedRunsStep` over the frame indices. -/
def voicedRunsFold (v : List Bool) : Option ℕ × List (ℕ × ℕ) :=
  (List.range v.length).foldl (voicedRunsStep v) (none, [])

/-- Maximal voiced runs of `create_note_bins`, with the trailing run
closed at the array length. -/
def voicedRuns (v : List Bool) : List (ℕ × ℕ) :=
  let st := voicedRunsFold v
  match st.1 with
  | some s => st.2 ++ [(s, v.length)]
  | none => st.2

/-- `create_note_bins(times, f0, confidence, tolerance_cents)` of
`preprocess_full.py`: segment the voiced frames into maximal runs,
discard runs shorter than the minimum note duration, and emit one bin
per surviving run with the median voiced pitch. -/
def createNoteBins (times f0 confidence : List ℚ) (toleranceCents : ℚ) : List NoteBin :=
  let voiced := List.zipWith
    (fun f c => decide (0 < f) && decide (pitchConfThreshold < c)) f0 confidence
  (voicedRuns voiced).filterMap (fun r =>
    let duration := times.getD (r.2 - 1) 0 - times.getD r.1 0
    if duration < minNoteDuration then none
    else
      let segmentF0 := pySlice f0 r.1 r.2
      let segmentF0Voiced := segmentF0.filter (fun x => decide (0 < x))
      if segmentF0Voiced = [] then none
      else some ⟨times.getD r.1 0, times.getD (r.2 - 1) 0, npMedian segmentF0Voiced,
        toleranceCents⟩)

/-- Whether a segment's karaoke interval `[tk_start, tk_end]` contains
`tk` (the covering test of the lookup loop in `warp_pitch_to_karaoke`). -/
def coversB (s : AlignmentSegment) (tk : ℚ) : Bool :=
  decide (s.tk_start ≤ tk) && decide (tk ≤ s.tk_end)

/-- The per-grid-time segment lookup of `warp_pitch_to_karaoke`: the
first segment covering `tk`, else the segment whose `tk_start` is
nearest to `tk` (`np.argmin` of the distances, i.e. first minimizer). -/
def lookupSegment (segments : List AlignmentSegment) (tk : ℚ) : Option AlignmentSegment :=
  match segments.find? (fun s => coversB s tk) with
  | some s => some s
  | none => argminFirst (fun s => |tk - s.tk_start|) segments

/-- Reference frame rate `REF_FPS = 50`. -/
def refFps : ℚ := 50

/-- The dense karaoke-timeline grid of `warp_pitch_to_karaoke`:
`np.arange(int(duration_k * fps)) / fps`. -/
def tkGrid (durationK : ℚ) : List ℚ :=
  (List.range (durationK * refFps).floor.toNat).map (fun i : ℕ => (i : ℚ) / refFps)

/-- The exponential-moving-average smoothing loop at the end of
`warp_pitch_to_karaoke` (`alpha = 0.3`), auxiliary recursion carrying
the previous smoothed value. -/
def emaSmoothAux (prev : ℚ) : List ℚ → List ℚ
  | [] => []
  | x :: xs =>
    let cur := if 0 < x ∧ 0 < prev then 3 / 10 * x + 7 / 10 * prev else x
    cur :: emaSmoothAux cur xs

/-- The EMA smoothing of the warped pitch contour: `f0_smooth[0] =
f0_warped[0]`, then blend with coefficient `0.3` whenever both the
current warped sample and the previous smoothed sample are positive,
otherwise copy the current warped sample. -/
def emaSmooth : List ℚ → List ℚ
  | [] => []
  | x :: xs => x :: emaSmoothAux x xs

/-- `warp_pitch_to_karaoke(times_ref, f0_ref, conf_ref, segments,
duration_k)`: map every grid time through its looked-up segment,
interpolate pitch and confidence at the mapped reference time
(0 outside the reference range), and EMA-smooth the warped pitch.  The
two error paths of the source are modelled as `Except.error`:
`np.argmin` on an empty distance list (empty segment list but nonempty
grid), and `scipy.interpolate.interp1d`, which raises `ValueError` when
its arrays have fewer than 2 entries or mismatched lengths. -/
def warpPitchToKaraoke (timesRef f0Ref confRef : List ℚ)
    (segments : List AlignmentSegment) (durationK : ℚ) :
    Except String (List ℚ × List ℚ × List ℚ) :=
  let grid := tkGrid durationK
  if grid ≠ [] ∧ segments = [] then
    Except.error "attempt to get argmin of an empty sequence"
  else
    let trefMapped := grid.map (fun tk =>
      match lookupSegment segments tk with
      | some s => s.mapTime tk
      | none => 0)
    if timesRef.length < 2 ∨ f0Ref.length < 2 ∨ timesRef.length ≠ f0Ref.length then
      Except.error "x and y arrays must have at least 2 entries"
    else if confRef.length < 2 ∨ timesRef.length ≠ confRef.length then
      Except.error "x and y arrays must have at least 2 entries"
    else
      let f0Warped := trefMapped.map (fun t => npInterpZero t timesRef f0Ref)
      let confWarped := trefMapped.map (fun t => npInterpZero t timesRef confRef)
      Except.ok (grid, emaSmooth f0Warped, confWarped)

/-- `extract_phrase_pitch(times, f0, start, end)` of `refine_results.py`:
restrict the parallel time/pitch arrays to the inclusive window. -/
def extractPhrasePitch (times f0 : List ℚ) (start stop : ℚ) : List ℚ × List ℚ :=
  let pairs := (times.zip f0).filter (fun p => decide (start ≤ p.1) && decide (p.1 ≤ stop))
  (pairs.map Prod.fst, pairs.map Prod.snd)

/-- `align_phrase_dtw(ref_pitch, singer_pitch)` of `refine_results.py`:
filter both contours to voiced samples; if either filtered sequence has
fewer than 3 samples return `(1.0, [], [])`, otherwise the normalized
DTW cost and the two index components of the warping path.  `sqrt`
stands for the square root that `dtaidistance.dtw.distance` applies to
the cumulative squared cost. -/
def alignPhraseDtw (sqrt : ℚ → ℚ) (refPitch singerPitch : List ℚ) :
    ℚ × List ℕ × List ℕ :=
  let refVoiced := refPitch.filter (fun x => decide (0 < x))
  let singerVoiced := singerPitch.filter (fun x => decide (0 < x))
  if refVoiced.length < 3 ∨ singerVoiced.length < 3 then (1, [], [])
  else
    let distance := sqrt (dtwDistSq refVoiced singerVoiced)
    let normalizedCost := distance / (max refVoiced.length singerVoiced.length : ℚ)
    let path := dtwWarpingPath refVoiced singerVoiced
      (refVoiced.length + singerVoiced.length)
    (normalizedCost, path.map Prod.fst, path.map Prod.snd)

/-- The aligned index pairs that `calculate_phrase_metrics` iterates
over: the zip of the two index arrays returned by `align_phrase_dtw`. -/
def metricsPairs (sqrt : ℚ → ℚ) (refF0 singerF0 : List ℚ) : List (ℕ × ℕ) :=
  (alignPhraseDtw sqrt refF0 singerF0).2.1.zip (alignPhraseDtw sqrt refF0 singerF0).2.2

/-- The list of quotients `singer_freq / ref_freq` on which
`calculate_phrase_metrics` evaluates `np.log2`: one per aligned index
pair whose looked-up frequencies are both strictly positive (the
`ref_freq > 0 and singer_freq > 0` guard of the source).  The indices
are read from the phrase-restricted, unfiltered arrays, exactly as the
source does. -/
def log2Args (refF0 singerF0 : List ℚ) (pairs : List (ℕ × ℕ)) : List ℚ :=
  pairs.filterMap (fun p =>
    let refFreq := refF0.getD p.1 0
    let singerFreq := singerF0.getD p.2 0
    if 0 < refFreq ∧ 0 < singerFreq then some (singerFreq / refFreq) else none)

/-- The per-phrase metric record of `calculate_phrase_metrics`. -/
structure PhraseMetrics where
  accuracy : ℚ
  median_cents_error : ℚ
  on_beat_pct : ℚ
  timing_offset : ℚ
  dtw_cost : ℚ
deriving DecidableEq

/-- `calculate_phrase_metrics` of `refine_results.py`.  `log2` stands for
`np.log2`; the cents errors are `1200 * log2(singer_freq / ref_freq)`
over the aligned pairs passing the positivity guard.  The DTW-path
indices are applied to the phrase-restricted (unfiltered) arrays via
`getD` — theorem `c10_dtw_indices_safe` below proves they are always in
bounds, so this total translation agrees with the source everywhere. -/
def calculatePhraseMetrics (log2 sqrt : ℚ → ℚ) (refTimes refPitch singerTimes singerPitch : List ℚ)
    (phraseStart phraseEnd : ℚ) : PhraseMetrics :=
  let refPhrase := extractPhrasePitch refTimes refPitch phraseStart phraseEnd
  let singerPhrase := extractPhrasePitch singerTimes singerPitch phraseStart phraseEnd
  let refT := refPhrase.1
  let refF0 := refPhrase.2
  let singerT := singerPhrase.1
  let singerF0 := singerPhrase.2
  if refF0 = [] ∨ singerF0 = [] then ⟨0, 0, 0, 0, 1⟩
  else
    let adtw := alignPhraseDtw sqrt refF0 singerF0
    let dtwCost := adtw.1
    let refIdx := adtw.2.1
    if refIdx = [] then ⟨0, 0, 0, 0, dtwCost⟩
    else
      let pairs := metricsPairs sqrt refF0 singerF0
      let centsErrors := (log2Args refF0 singerF0 pairs).map (fun q => 1200 * log2 q)
      let medianCents := if centsErrors = [] then 0 else npMedian centsErrors
      let accuracy := if centsErrors = [] then 0 else
        ((centsErrors.filter (fun e => decide (|e| ≤ 50))).length : ℚ) / centsErrors.length
      let timingOffsets := pairs.filterMap (fun p =>
        if p.1 < refT.length ∧ p.2 < singerT.length then
          some (singerT.getD p.2 0 - refT.getD p.1 0)
        else none)
      let timingOffset := if timingOffsets = [] then 0 else
        timingOffsets.sum / timingOffsets.length
      ⟨accuracy, medianCents, accuracy, timingOffset, dtwCost⟩

/-- A phrase record (`{id, start, end}`) of the reference asset. -/
structure Phrase where
  id : ℕ
  start : ℚ
  stop : ℚ
deriving DecidableEq

/-- The fields of the reference asset that `refine_results` reads. -/
structure RefData where
  phrases_k : List Phrase
  f0_ref_on_k : List (ℚ × ℚ)
deriving DecidableEq

/-- A performance input: index-aligned timestamps and pitch samples. -/
structure PerfData where
  timestamps : List ℚ
  pitch : List ℚ
deriving DecidableEq

/-- A refined per-phrase result entry. -/
structure PhraseResult where
  id : ℕ
  start : ℚ
  stop : ℚ
  m : PhraseMetrics
deriving DecidableEq

/-- The refined results document of `refine_results`. -/
structure RefinedResults where
  overall_accuracy : ℚ
  overall_median_cents_error : ℚ
  phrases : List PhraseResult
  pitch_timeline : List (ℚ × ℚ × ℚ)
  phrase_accuracy : List ℚ
deriving DecidableEq

/-- `generate_pitch_chart` of `refine_results.py`: after the
empty-input early return, build the two `scipy.interpolate.interp1d`
interpolants (`kind='linear', bounds_error=False, fill_value=0`) and
resample both contours onto a common 500-point timeline.  `interp1d`
raises `ValueError` when either of its arrays has fewer than 2 entries
or their lengths differ; these paths are modelled as `Except.error`
(reference interpolant first, as in the source).  Inside the knot range
the interpolation is linear; outside it fills with 0 (`npInterpZero`). -/
def generatePitchChart (refTimes refPitch perfTimes perfPitch : List ℚ) :
    Except String (List (ℚ × ℚ × ℚ)) :=
  if refTimes = [] ∨ perfTimes = [] then Except.ok []
  else
    if refTimes.length < 2 ∨ refPitch.length < 2 ∨ refTimes.length ≠ refPitch.length then
      Except.error "x and y arrays must have at least 2 entries"
    else if perfTimes.length < 2 ∨ perfPitch.length < 2 ∨
        perfTimes.length ≠ perfPitch.length then
      Except.error "x and y arrays must have at least 2 entries"
    else
      let tMin := min (refTimes.getD 0 0) (perfTimes.getD 0 0)
      let tMax := max (refTimes.getD (refTimes.length - 1) 0)
        (perfTimes.getD (perfTimes.length - 1) 0)
      Except.ok ((linspace tMin tMax 500).map (fun t =>
        (t, npInterpZero t refTimes refPitch, npInterpZero t perfTimes perfPitch)))

/-- `refine_results(reference, performance)` of `refine_results.py`.  The
return type is `Except String RefinedResults`: the per-phrase scoring
path is total, but the chart generation can raise `ValueError` inside
`scipy.interpolate.interp1d` (single-sample or mismatched pitch
arrays), and that exception propagates out of `refine_results`;
`refineResults` propagates the corresponding `Except.error`. -/
def refineResults (log2 sqrt : ℚ → ℚ) (reference : RefData) (performance : PerfData) :
    Except String RefinedResults :=
  let refTimes := reference.f0_ref_on_k.map Prod.fst
  let refPitch := reference.f0_ref_on_k.map Prod.snd
  let perfTimes := performance.timestamps
  let perfPitch := performance.pitch
  let refinedPhrases := reference.phrases_k.map (fun ph =>
    (⟨ph.id, ph.start, ph.stop,
      calculatePhraseMetrics log2 sqrt refTimes refPitch perfTimes perfPitch
        ph.start ph.stop⟩ : PhraseResult))
  let overallAccuracy := if refinedPhrases = [] then 0
    else listMean (refinedPhrases.map (fun p => p.m.accuracy))
  let medianError := if refinedPhrases = [] then 0
    else npMedian (refinedPhrases.map (fun p => p.m.median_cents_error))
  match generatePitchChart refTimes refPitch perfTimes perfPitch with
  | Except.error e => Except.error e
  | Except.ok chart =>
    Except.ok ⟨overallAccuracy, medianError, refinedPhrases, chart,
      refinedPhrases.map (fun p => p.m.accuracy)⟩

/-! ## Theorems -/

/-- Claim C5: in the merge pass of `fit_piecewise_linear`, scanning
segments in order, the current segment `cur` is merged into the previous
one `prev` exactly when `|Δslope| < 0.01`, `|Δintercept| < 0.1` and both
qualities exceed `0.8`; the merged segment takes the arithmetic means of
the slopes and intercepts and the minimum of the two qualities. -/
theorem c5_merge_pass_step (segs : List AlignmentSegment) (cur prev : AlignmentSegment)
    (acc : List AlignmentSegment) (h : mergeSegments segs = acc ++ [prev]) :
    mergeSegments (segs ++ [cur]) =
      if specShouldMerge prev cur then acc ++ [specMergedSegment prev cur]
      else acc ++ [prev, cur] := by
  unfold mergeSegments at h ⊢
  rw [List.foldl_append, h]
  simp only [List.foldl_cons, List.foldl_nil]
  unfold mergeStep
  rw [List.getLast?_concat]
  dsimp only
  have hcond : (|cur.a - prev.a| < 1 / 100 ∧ |cur.b - prev.b| < 1 / 10 ∧
      4 / 5 < cur.quality ∧ 4 / 5 < prev.quality) ↔ specShouldMerge prev cur := by
    unfold specShouldMerge; tauto
  by_cases hm : specShouldMerge prev cur
  · rw [if_pos hm, if_pos (hcond.mpr hm), List.dropLast_concat]
    have hseg : (⟨prev.tk_start, cur.tk_end, (cur.a + prev.a) / 2, (cur.b + prev.b) / 2,
        min cur.quality prev.quality⟩ : AlignmentSegment) = specMergedSegment prev cur := by
      unfold specMergedSegment
      rw [add_comm cur.a prev.a, add_comm cur.b prev.b, min_comm]
    rw [hseg]
  · rw [if_neg hm, if_neg (fun hc => hm (hcond.mp hc)), List.append_assoc]
    rfl

/-- Claim C5 witness: a concrete merge of two compatible segments. -/
theorem c5_merge_pass_step_witness :
    mergeSegments [(⟨0, 1, 1, 0, 1⟩ : AlignmentSegment)] =
      [] ++ [(⟨0, 1, 1, 0, 1⟩ : AlignmentSegment)] ∧
    mergeSegments ([(⟨0, 1, 1, 0, 1⟩ : AlignmentSegment)] ++ [⟨1, 2, 1, 0, 1⟩]) =
      if specShouldMerge ⟨0, 1, 1, 0, 1⟩ ⟨1, 2, 1, 0, 1⟩ then
        [] ++ [specMergedSegment ⟨0, 1, 1, 0, 1⟩ ⟨1, 2, 1, 0, 1⟩]
      else [] ++ [⟨0, 1, 1, 0, 1⟩, ⟨1, 2, 1, 0, 1⟩] :=
  ⟨by decide, c5_merge_pass_step [⟨0, 1, 1, 0, 1⟩] ⟨1, 2, 1, 0, 1⟩ ⟨0, 1, 1, 0, 1⟩ []
    (by decide)⟩

/-- Claim C2: whenever either voiced-filtered phrase-restricted sequence
has fewer than 3 samples, `calculate_phrase_metrics` returns the
degenerate result `accuracy = 0`, `median_cents_error = 0`,
`on_beat_pct = 0`, `timing_offset = 0`, `dtw_cost = 1`, for every choice
of the transcendental helpers (the scoring path is total — no exception
is raised). -/
theorem c2_insufficient_data_degenerate (log2 sqrt : ℚ → ℚ)
    (refTimes refPitch singerTimes singerPitch : List ℚ) (phraseStart phraseEnd : ℚ)
    (h : ((extractPhrasePitch refTimes refPitch phraseStart phraseEnd).2.filter
        (fun x => decide (0 < x))).length < 3 ∨
      ((extractPhrasePitch singerTimes singerPitch phraseStart phraseEnd).2.filter
        (fun x => decide (0 < x))).length < 3) :
    calculatePhraseMetrics log2 sqrt refTimes refPitch singerTimes singerPitch
      phraseStart phraseEnd = ⟨0, 0, 0, 0, 1⟩ := by
  unfold calculatePhraseMetrics
  by_cases he : (extractPhrasePitch refTimes refPitch phraseStart phraseEnd).2 = [] ∨
      (extractPhrasePitch singerTimes singerPitch phraseStart phraseEnd).2 = []
  · rw [if_pos he]
  · rw [if_neg he]
    have halign : alignPhraseDtw sqrt
        (extractPhrasePitch refTimes refPitch phraseStart phraseEnd).2
        (extractPhrasePitch singerTimes singerPitch phraseStart phraseEnd).2 = (1, [], []) := by
      unfold alignPhraseDtw
      rw [if_pos h]
    simp only [halign]
    simp

/-- Claim C2 witness: a singer contour with no voiced sample in the
phrase window yields the degenerate metrics. -/
theorem c2_insufficient_data_degenerate_witness :
    (((extractPhrasePitch [0] [0] 0 1).2.filter (fun x => decide (0 < x))).length < 3 ∨
      ((extractPhrasePitch [0] [0] 0 1).2.filter (fun x => decide (0 < x))).length < 3) ∧
    calculatePhraseMetrics (fun q => q) (fun q => q) [0] [0] [0] [0] 0 1 = ⟨0, 0, 0, 0, 1⟩ :=
  ⟨by decide, c2_insufficient_data_degenerate (fun q => q) (fun q => q) [0] [0] [0] [0] 0 1
    (by decide)⟩

/-- Claim C8 counterexample: on an empty phrase list (with empty pitch
data, so the incidental chart interpolation takes its own early return)
`refine_results` does not report a hard error; it silently returns a
patched result (`Except.ok` with overall accuracy 0 and an empty phrase
list), contrary to the claim that this input is treated as a caller
contract violation. -/
theorem c8_empty_phrases_counterexample :
    refineResults (fun q => q) (fun q => q) ⟨[], []⟩ ⟨[], []⟩ =
      Except.ok ⟨0, 0, [], [], []⟩ := by
  rfl

/-- Claim C8 amended: `refine_results` performs no check on the phrase
list — an empty phrase list is not treated as a caller contract
violation.  On every empty-phrase input on which the incidental
pitch-chart interpolation is defined (either pitch input empty, or both
index-aligned with at least two samples — the only error the function
can raise comes from `scipy.interpolate.interp1d` inside
`generate_pitch_chart` and is independent of the phrase list), it
silently returns a patched result with overall accuracy 0, overall
median cents error 0, and an empty phrases list. -/
theorem c8_empty_phrases_silent (log2 sqrt : ℚ → ℚ) (reference : RefData)
    (performance : PerfData) (h : reference.phrases_k = [])
    (hchart : reference.f0_ref_on_k = [] ∨ performance.timestamps = [] ∨
      (2 ≤ reference.f0_ref_on_k.length ∧ 2 ≤ performance.timestamps.length ∧
        performance.timestamps.length = performance.pitch.length)) :
    ∃ r, refineResults log2 sqrt reference performance = Except.ok r ∧
      r.overall_accuracy = 0 ∧ r.overall_median_cents_error = 0 ∧ r.phrases = [] := by
  have hok : ∃ c, generatePitchChart (reference.f0_ref_on_k.map Prod.fst)
      (reference.f0_ref_on_k.map Prod.snd) performance.timestamps performance.pitch =
      Except.ok c := by
    unfold generatePitchChart
    rcases hchart with h1 | h2 | ⟨ha, hb, hc⟩
    · rw [if_pos (Or.inl (by rw [h1]; rfl))]
      exact ⟨[], rfl⟩
    · rw [if_pos (Or.inr h2)]
      exact ⟨[], rfl⟩
    · by_cases hemp : reference.f0_ref_on_k.map Prod.fst = [] ∨ performance.timestamps = []
      · rw [if_pos hemp]
        exact ⟨[], rfl⟩
      · rw [if_neg hemp]
        rw [if_neg (by
          simp only [List.length_map]
          push_neg
          exact ⟨by omega, by omega, rfl⟩)]
        rw [if_neg (by
          push_neg
          exact ⟨by omega, by omega, hc⟩)]
        exact ⟨_, rfl⟩
  obtain ⟨c, hc'⟩ := hok
  unfold refineResults
  rw [h]
  simp only [List.map_nil, hc']
  exact ⟨_, rfl, rfl, rfl, rfl⟩

/-- Claim C8 amended witness: empty-phrase reference whose pitch data
(two samples each, index-aligned) keeps the chart interpolation
defined. -/
theorem c8_empty_phrases_silent_witness :
    (RefData.phrases_k ⟨[], [(0, 100), (1, 200)]⟩ = []) ∧
    (RefData.f0_ref_on_k ⟨[], [(0, 100), (1, 200)]⟩ = [] ∨
      PerfData.timestamps ⟨[0, 1], [100, 200]⟩ = [] ∨
      (2 ≤ (RefData.f0_ref_on_k ⟨[], [(0, 100), (1, 200)]⟩).length ∧
        2 ≤ (PerfData.timestamps ⟨[0, 1], [100, 200]⟩).length ∧
        (PerfData.timestamps ⟨[0, 1], [100, 200]⟩).length =
          (PerfData.pitch ⟨[0, 1], [100, 200]⟩).length)) ∧
    ∃ r, refineResults (fun q => q) (fun q => q) ⟨[], [(0, 100), (1, 200)]⟩
        ⟨[0, 1], [100, 200]⟩ = Except.ok r ∧
      r.overall_accuracy = 0 ∧ r.overall_median_cents_error = 0 ∧ r.phrases = [] :=
  ⟨rfl, by decide,
    c8_empty_phrases_silent (fun q => q) (fun q => q) ⟨[], [(0, 100), (1, 200)]⟩
      ⟨[0, 1], [100, 200]⟩ rfl (by decide)⟩

/-- The EMA auxiliary recursion preserves length. -/
theorem emaSmoothAux_length (l : List ℚ) : ∀ prev, (emaSmoothAux prev l).length = l.length := by
  induction l with
  | nil => intro prev; rfl
  | cons x xs ih => intro prev; simp only [emaSmoothAux, List.length_cons, ih]

/-- The EMA auxiliary recursion is nonnegative and sign-preserving on
nonnegative inputs with a nonnegative seed. -/
theorem emaSmoothAux_sign (l : List ℚ) : ∀ prev, 0 ≤ prev → (∀ x ∈ l, 0 ≤ x) →
    ∀ i, i < l.length →
      0 ≤ (emaSmoothAux prev l).getD i 0 ∧
        (0 < (emaSmoothAux prev l).getD i 0 ↔ 0 < l.getD i 0) := by
  induction l with
  | nil => intro prev _ _ i hi; simp at hi
  | cons x xs ih =>
    intro prev hprev hall i hi
    have hx : 0 ≤ x := hall x (List.mem_cons_self x xs)
    have hcur : 0 ≤ (if 0 < x ∧ 0 < prev then 3 / 10 * x + 7 / 10 * prev else x) ∧
        (0 < (if 0 < x ∧ 0 < prev then 3 / 10 * x + 7 / 10 * prev else x) ↔ 0 < x) := by
      by_cases hc : 0 < x ∧ 0 < prev
      · rw [if_pos hc]
        constructor
        · nlinarith [hc.1, hc.2]
        · constructor
          · intro _; exact hc.1
          · intro _; nlinarith [hc.1, hc.2]
      · rw [if_neg hc]; exact ⟨hx, Iff.rfl⟩
    simp only [emaSmoothAux]
    cases i with
    | zero => simpa using hcur
    | succ i =>
      simp only [List.getD_cons_succ]
      exact ih _ hcur.1 (fun y hy => hall y (List.mem_cons_of_mem x hy)) i
        (by simpa using hi)

/-- Step equation of the EMA auxiliary recursion at successor indices. -/
theorem emaSmoothAux_step (l : List ℚ) : ∀ (prev : ℚ) (i : ℕ), i + 1 < l.length →
    (emaSmoothAux prev l).getD (i + 1) 0 =
      if 0 < l.getD (i + 1) 0 ∧ 0 < (emaSmoothAux prev l).getD i 0 then
        3 / 10 * l.getD (i + 1) 0 + 7 / 10 * (emaSmoothAux prev l).getD i 0
      else l.getD (i + 1) 0 := by
  induction l with
  | nil => intro prev i hi; simp at hi
  | cons x xs ih =>
    intro prev i hi
    cases i with
    | zero =>
      match xs, hi with
      | y :: ys, _ => simp only [emaSmoothAux, List.getD_cons_succ, List.getD_cons_zero]
    | succ i =>
      simp only [emaSmoothAux, List.getD_cons_succ]
      exact ih _ i (by simpa using hi)

/-- Step equation of `emaSmooth` at successor indices: blend with the
previous smoothed value when both it and the current warped sample are
positive, else copy the current warped sample. -/
theorem emaSmooth_getD_succ (w : List ℚ) (i : ℕ) (hi : i + 1 < w.length) :
    (emaSmooth w).getD (i + 1) 0 =
      if 0 < w.getD (i + 1) 0 ∧ 0 < (emaSmooth w).getD i 0 then
        3 / 10 * w.getD (i + 1) 0 + 7 / 10 * (emaSmooth w).getD i 0
      else w.getD (i + 1) 0 := by
  match w with
  | [] => simp at hi
  | x :: xs =>
    cases i with
    | zero =>
      match xs, hi with
      | y :: ys, _ => simp only [emaSmooth, emaSmoothAux, List.getD_cons_succ,
          List.getD_cons_zero]
    | succ i =>
      simp only [emaSmooth, List.getD_cons_succ]
      exact emaSmoothAux_step xs x i (by simpa using hi)

/-- Sign preservation of `emaSmooth` on nonnegative inputs. -/
theorem emaSmooth_sign (w : List ℚ) (hw : ∀ x ∈ w, 0 ≤ x) :
    ∀ i, i < w.length →
      0 ≤ (emaSmooth w).getD i 0 ∧ (0 < (emaSmooth w).getD i 0 ↔ 0 < w.getD i 0) := by
  match w with
  | [] => intro i hi; simp at hi
  | x :: xs =>
    intro i hi
    have hx : 0 ≤ x := hw x (List.mem_cons_self x xs)
    cases i with
    | zero =>
      simp only [emaSmooth, List.getD_cons_zero]
      exact ⟨hx, trivial⟩
    | succ i =>
      simp only [emaSmooth, List.getD_cons_succ]
      exact emaSmoothAux_sign xs x hx (fun y hy => hw y (List.mem_cons_of_mem x hy)) i
        (by simpa using hi)

/-- Claim C7: for a nonnegative warped pitch sequence, the EMA pass of
`warp_pitch_to_karaoke` blends only across consecutive voiced frames:
`output[i+1] = 0.3·warped[i+1] + 0.7·output[i]` exactly when both the
current and the previous warped sample are voiced, `output[i+1] =
warped[i+1]` otherwise (a reset), and the output is zero exactly where
the warped input is zero. -/
theorem c7_ema_blends_voiced_only (w : List ℚ) (hw : ∀ x ∈ w, 0 ≤ x) :
    (emaSmooth w).length = w.length ∧
    (∀ i, i + 1 < w.length →
      (emaSmooth w).getD (i + 1) 0 =
        if 0 < w.getD (i + 1) 0 ∧ 0 < w.getD i 0 then
          3 / 10 * w.getD (i + 1) 0 + 7 / 10 * (emaSmooth w).getD i 0
        else w.getD (i + 1) 0) ∧
    (∀ i, i < w.length → ((emaSmooth w).getD i 0 = 0 ↔ w.getD i 0 = 0)) := by
  refine ⟨?_, ?_, ?_⟩
  · match w with
    | [] => rfl
    | x :: xs => simp only [emaSmooth, List.length_cons, emaSmoothAux_length]
  · intro i hi
    rw [emaSmooth_getD_succ w i hi]
    have hsign := (emaSmooth_sign w hw i (by omega)).2
    exact if_congr (and_congr_right (fun _ => hsign)) rfl rfl
  · intro i hi
    have hs := emaSmooth_sign w hw i hi
    have hwi : 0 ≤ w.getD i 0 := by
      rw [List.getD_eq_getElem _ _ hi]
      exact hw _ (List.getElem_mem hi)
    constructor
    · intro h0
      by_contra hne
      have hpos : 0 < w.getD i 0 := lt_of_le_of_ne hwi (Ne.symm hne)
      have hspos := hs.2.mpr hpos
      rw [h0] at hspos
      exact lt_irrefl 0 hspos
    · intro h0
      have hnot : ¬ 0 < (emaSmooth w).getD i 0 := by
        rw [hs.2, h0]
        exact lt_irrefl 0
      exact le_antisymm (not_lt.mp hnot) hs.1

/-- Claim C7 witness: a concrete contour with an unvoiced gap. -/
theorem c7_ema_blends_voiced_only_witness :
    (∀ x ∈ ([100, 200, 0, 50] : List ℚ), 0 ≤ x) ∧
    ((emaSmooth [100, 200, 0, 50]).length = ([100, 200, 0, 50] : List ℚ).length ∧
    (∀ i, i + 1 < ([100, 200, 0, 50] : List ℚ).length →
      (emaSmooth [100, 200, 0, 50]).getD (i + 1) 0 =
        if 0 < ([100, 200, 0, 50] : List ℚ).getD (i + 1) 0 ∧
            0 < ([100, 200, 0, 50] : List ℚ).getD i 0 then
          3 / 10 * ([100, 200, 0, 50] : List ℚ).getD (i + 1) 0 +
            7 / 10 * (emaSmooth [100, 200, 0, 50]).getD i 0
        else ([100, 200, 0, 50] : List ℚ).getD (i + 1) 0) ∧
    (∀ i, i < ([100, 200, 0, 50] : List ℚ).length →
      ((emaSmooth [100, 200, 0, 50]).getD i 0 = 0 ↔
        ([100, 200, 0, 50] : List ℚ).getD i 0 = 0))) :=
  ⟨by norm_num, c7_ema_blends_voiced_only [100, 200, 0, 50] (by norm_num)⟩

/-- Decomposition of a successful `List.find?`: the found element is the
first one satisfying the predicate. -/
theorem find?_split {α : Type} (p : α → Bool) :
    ∀ (l : List α) (a : α), l.find? p = some a →
      ∃ l1 l2, l = l1 ++ a :: l2 ∧ p a = true ∧ ∀ x ∈ l1, p x = false := by
  intro l
  induction l with
  | nil => intro a h; simp [List.find?] at h
  | cons x xs ih =>
    intro a h
    by_cases hx : p x
    · rw [List.find?_cons_of_pos _ hx] at h
      obtain rfl := Option.some.inj h
      exact ⟨[], xs, rfl, hx, by simp⟩
    · rw [List.find?_cons_of_neg _ hx] at h
      obtain ⟨l1, l2, heq, hpa, hl1⟩ := ih a h
      refine ⟨x :: l1, l2, by rw [heq, List.cons_append], hpa, ?_⟩
      intro y hy
      rcases List.mem_cons.mp hy with rfl | hy
      · simpa using hx
      · exact hl1 y hy

/-- `argminFirst` on a nonempty list returns a member attaining the
minimum of `f`. -/
theorem argminFirst_spec {α : Type} (f : α → ℚ) :
    ∀ (l : List α), l ≠ [] → ∃ a, argminFirst f l = some a ∧ a ∈ l ∧ ∀ x ∈ l, f a ≤ f x := by
  intro l
  induction l with
  | nil => intro h; exact absurd rfl h
  | cons x xs ih =>
    intro _
    by_cases hxs : xs = []
    · subst hxs
      refine ⟨x, rfl, List.mem_cons_self x [], ?_⟩
      intro y hy
      rcases List.mem_cons.mp hy with rfl | hy
      · exact le_refl _
      · simp at hy
    · obtain ⟨a, ha, hmem, hmin⟩ := ih hxs
      have hstep : argminFirst f (x :: xs) =
          if f a < f x then some a else some x := by
        unfold argminFirst
        rw [ha]
      by_cases hlt : f a < f x
      · rw [if_pos hlt] at hstep
        refine ⟨a, hstep, List.mem_cons_of_mem x hmem, ?_⟩
        intro y hy
        rcases List.mem_cons.mp hy with rfl | hy
        · exact le_of_lt hlt
        · exact hmin y hy
      · rw [if_neg hlt] at hstep
        refine ⟨x, hstep, List.mem_cons_self x xs, ?_⟩
        intro y hy
        rcases List.mem_cons.mp hy with rfl | hy
        · exact le_refl _
        · exact le_trans (not_lt.mp hlt) (hmin y hy)

/-- Claim C6: for a nonempty segment list and every grid time of the
warp grid, the segment lookup of `warp_pitch_to_karaoke` always
succeeds (no error raised): it returns the first segment whose
`[tk_start, tk_end]` interval contains `tk`, and when no segment covers
`tk` it returns a segment whose `tk_start` is closest to `tk` in
absolute distance. -/
theorem c6_segment_lookup_total (segments : List AlignmentSegment) (durationK tk : ℚ)
    (_htk : tk ∈ tkGrid durationK) (hne : segments ≠ []) :
    ∃ s, lookupSegment segments tk = some s ∧ s ∈ segments ∧
      ((∃ l1 l2, segments = l1 ++ s :: l2 ∧ coversB s tk = true ∧
          ∀ t ∈ l1, coversB t tk = false) ∨
        ((∀ t ∈ segments, coversB t tk = false) ∧
          ∀ t ∈ segments, |tk - s.tk_start| ≤ |tk - t.tk_start|)) := by
  unfold lookupSegment
  cases hf : segments.find? (fun s => coversB s tk) with
  | some s =>
    obtain ⟨l1, l2, heq, hp, hl1⟩ := find?_split _ segments s hf
    exact ⟨s, rfl, List.mem_of_find?_eq_some hf, Or.inl ⟨l1, l2, heq, hp, hl1⟩⟩
  | none =>
    obtain ⟨a, ha, hmem, hmin⟩ := argminFirst_spec (fun s => |tk - s.tk_start|) segments hne
    refine ⟨a, ha, hmem, Or.inr ⟨?_, hmin⟩⟩
    intro t ht
    simpa using List.find?_eq_none.mp hf t ht

/-- Claim C6 witness: a one-segment list and grid time 0. -/
theorem c6_segment_lookup_total_witness :
    ((0 : ℚ) ∈ tkGrid 1) ∧ ([(⟨0, 1, 1, 0, 1⟩ : AlignmentSegment)] ≠ []) ∧
    ∃ s, lookupSegment [(⟨0, 1, 1, 0, 1⟩ : AlignmentSegment)] 0 = some s ∧
      s ∈ [(⟨0, 1, 1, 0, 1⟩ : AlignmentSegment)] ∧
      ((∃ l1 l2, [(⟨0, 1, 1, 0, 1⟩ : AlignmentSegment)] = l1 ++ s :: l2 ∧
          coversB s 0 = true ∧ ∀ t ∈ l1, coversB t 0 = false) ∨
        ((∀ t ∈ [(⟨0, 1, 1, 0, 1⟩ : AlignmentSegment)], coversB t 0 = false) ∧
          ∀ t ∈ [(⟨0, 1, 1, 0, 1⟩ : AlignmentSegment)], |0 - s.tk_start| ≤ |0 - t.tk_start|)) :=
  ⟨by with_unfolding_all decide, by decide,
    c6_segment_lookup_total [⟨0, 1, 1, 0, 1⟩] 1 0 (by with_unfolding_all decide) (by decide)⟩

/-- One segmentation step preserves the run invariants: all recorded
runs are nonempty index intervals within the processed prefix, pairwise
ordered, and an open run starts inside the prefix after every recorded
run. -/
theorem voicedRunsStep_inv (v : List Bool) (n : ℕ) (st : Option ℕ × List (ℕ × ℕ))
    (h1 : ∀ r ∈ st.2, r.1 < r.2 ∧ r.2 ≤ n)
    (h2 : st.2.Pairwise (fun r1 r2 => r1.2 ≤ r2.1))
    (h3 : ∀ s, st.1 = some s → s < n ∧ ∀ r ∈ st.2, r.2 ≤ s) :
    (∀ r ∈ (voicedRunsStep v st n).2, r.1 < r.2 ∧ r.2 ≤ n + 1) ∧
    (voicedRunsStep v st n).2.Pairwise (fun r1 r2 => r1.2 ≤ r2.1) ∧
    (∀ s, (voicedRunsStep v st n).1 = some s →
      s < n + 1 ∧ ∀ r ∈ (voicedRunsStep v st n).2, r.2 ≤ s) := by
  obtain ⟨o, runs⟩ := st
  unfold voicedRunsStep
  by_cases hv : v.getD n false
  · rw [if_pos hv]
    cases o with
    | none =>
      dsimp only
      refine ⟨fun r hr => ⟨(h1 r hr).1, Nat.le_succ_of_le (h1 r hr).2⟩, h2, ?_⟩
      intro s hs
      have hns : n = s := Option.some.inj hs
      subst hns
      exact ⟨Nat.lt_succ_self n, fun r hr => (h1 r hr).2⟩
    | some s0 =>
      dsimp only
      refine ⟨fun r hr => ⟨(h1 r hr).1, Nat.le_succ_of_le (h1 r hr).2⟩, h2, ?_⟩
      intro s hs
      have hss : s0 = s := Option.some.inj hs
      subst hss
      obtain ⟨ha, hb⟩ := h3 s0 rfl
      exact ⟨Nat.lt_succ_of_lt ha, hb⟩
  · rw [if_neg hv]
    cases o with
    | none =>
      dsimp only
      exact ⟨fun r hr => ⟨(h1 r hr).1, Nat.le_succ_of_le (h1 r hr).2⟩, h2,
        fun s hs => Option.noConfusion hs⟩
    | some s0 =>
      dsimp only
      obtain ⟨hs0, hrb⟩ := h3 s0 rfl
      refine ⟨?_, ?_, fun s hs => Option.noConfusion hs⟩
      · intro r hr
        rcases List.mem_append.mp hr with hr | hr
        · exact ⟨(h1 r hr).1, Nat.le_succ_of_le (h1 r hr).2⟩
        · simp only [List.mem_singleton] at hr
          subst hr
          exact ⟨hs0, Nat.le_succ n⟩
      · rw [List.pairwise_append]
        refine ⟨h2, List.pairwise_singleton _ _, ?_⟩
        intro a ha b hb
        simp only [List.mem_singleton] at hb
        subst hb
        exact hrb a ha

/-- The run invariants hold after folding the segmentation step over any
index prefix. -/
theorem voicedRunsFold_inv (v : List Bool) (n : ℕ) :
    (∀ r ∈ ((List.range n).foldl (voicedRunsStep v) (none, [])).2,
      r.1 < r.2 ∧ r.2 ≤ n) ∧
    ((List.range n).foldl (voicedRunsStep v) (none, [])).2.Pairwise
      (fun r1 r2 => r1.2 ≤ r2.1) ∧
    (∀ s, ((List.range n).foldl (voicedRunsStep v) (none, [])).1 = some s →
      s < n ∧ ∀ r ∈ ((List.range n).foldl (voicedRunsStep v) (none, [])).2,
        r.2 ≤ s) := by
  induction n with
  | zero => exact ⟨by simp, by simp, by simp⟩
  | succ n ih =>
    rw [List.range_succ, List.foldl_append]
    simp only [List.foldl_cons, List.foldl_nil]
    obtain ⟨ih1, ih2, ih3⟩ := ih
    exact voicedRunsStep_inv v n _ ih1 ih2 ih3

/-- The voiced runs of `create_note_bins` are nonempty intervals within
the array bounds, pairwise ordered end-before-start. -/
theorem voicedRuns_wf (v : List Bool) :
    (∀ r ∈ voicedRuns v, r.1 < r.2 ∧ r.2 ≤ v.length) ∧
    (voicedRuns v).Pairwise (fun r1 r2 => r1.2 ≤ r2.1) := by
  obtain ⟨h1, h2, h3⟩ := voicedRunsFold_inv v v.length
  unfold voicedRuns voicedRunsFold
  dsimp only
  cases ho : ((List.range v.length).foldl (voicedRunsStep v) (none, [])).1 with
  | none => exact ⟨h1, h2⟩
  | some s =>
    obtain ⟨hs, hrb⟩ := h3 s ho
    constructor
    · intro r hr
      rcases List.mem_append.mp hr with hr | hr
      · exact ⟨(h1 r hr).1, (h1 r hr).2⟩
      · simp only [List.mem_singleton] at hr
        subst hr
        exact ⟨hs, le_refl _⟩
    · rw [List.pairwise_append]
      refine ⟨h2, List.pairwise_singleton _ _, ?_⟩
      intro a ha b hb
      simp only [List.mem_singleton] at hb
      subst hb
      exact hrb a ha

/-- Membership in `insertSorted` comes from the inserted element or the
original list. -/
theorem insertSorted_mem (x : ℚ) (l : List ℚ) (y : ℚ) (h : y ∈ insertSorted x l) :
    y = x ∨ y ∈ l := by
  induction l with
  | nil => simpa [insertSorted] using h
  | cons z zs ih =>
    unfold insertSorted at h
    by_cases hle : x ≤ z
    · rw [if_pos hle] at h
      rcases List.mem_cons.mp h with rfl | h
      · exact Or.inl rfl
      · exact Or.inr h
    · rw [if_neg hle] at h
      rcases List.mem_cons.mp h with rfl | h
      · exact Or.inr (List.mem_cons_self _ _)
      · rcases ih h with h | h
        · exact Or.inl h
        · exact Or.inr (List.mem_cons_of_mem _ h)

/-- `insertSorted` adds one element to the length. -/
theorem insertSorted_length (x : ℚ) (l : List ℚ) :
    (insertSorted x l).length = l.length + 1 := by
  induction l with
  | nil => rfl
  | cons z zs ih =>
    unfold insertSorted
    by_cases hle : x ≤ z
    · rw [if_pos hle]
      rfl
    · rw [if_neg hle]
      simp [ih]

/-- Every element of the sorted copy is an element of the original. -/
theorem sortQ_mem (l : List ℚ) (y : ℚ) (h : y ∈ sortQ l) : y ∈ l := by
  induction l with
  | nil => simp [sortQ] at h
  | cons z zs ih =>
    have h' : y ∈ insertSorted z (sortQ zs) := h
    rcases insertSorted_mem z (sortQ zs) y h' with rfl | h''
    · exact List.mem_cons_self _ _
    · exact List.mem_cons_of_mem _ (ih h'')

/-- Sorting preserves length. -/
theorem sortQ_length (l : List ℚ) : (sortQ l).length = l.length := by
  induction l with
  | nil => rfl
  | cons z zs ih =>
    have hz : sortQ (z :: zs) = insertSorted z (sortQ zs) := rfl
    rw [hz, insertSorted_length, ih]
    rfl

/-- The median of a nonempty list of positive rationals is positive. -/
theorem npMedian_pos (l : List ℚ) (hne : l ≠ []) (hpos : ∀ x ∈ l, 0 < x) :
    0 < npMedian l := by
  have hlen0 : 0 < l.length := List.length_pos.mpr hne
  have hslen : (sortQ l).length = l.length := sortQ_length l
  have hget : ∀ i, i < l.length → 0 < (sortQ l).getD i 0 := by
    intro i hi
    have hi' : i < (sortQ l).length := by omega
    rw [List.getD_eq_getElem _ _ hi']
    exact hpos _ (sortQ_mem l _ (List.getElem_mem hi'))
  have hhalf : l.length / 2 < l.length := Nat.div_lt_self hlen0 one_lt_two
  unfold npMedian
  by_cases hodd : l.length % 2 = 1
  · rw [if_pos hodd]
    exact hget _ hhalf
  · rw [if_neg hodd]
    have h1 := hget _ hhalf
    have h2 := hget (l.length / 2 - 1) (by omega)
    positivity

/-- Strictly sorted lists have strictly increasing `getD` values. -/
theorem sorted_getD_lt (l : List ℚ) (h : l.Sorted (· < ·)) (i j : ℕ) (hij : i < j)
    (hj : j < l.length) : l.getD i 0 < l.getD j 0 := by
  have hi : i < l.length := lt_trans hij hj
  rw [List.getD_eq_getElem _ _ hi, List.getD_eq_getElem _ _ hj]
  exact List.pairwise_iff_getElem.mp h i j hi hj hij

/-- Claim C3: for strictly increasing times and parallel `f0` and
confidence arrays, every note bin emitted by `create_note_bins` lasts at
least the minimum note duration (hence ends strictly after it starts)
and has positive pitch, and the bins are emitted in time order, pairwise
non-overlapping (each ends strictly before the next starts). -/
theorem c3_note_bins_valid (times f0 confidence : List ℚ) (tol : ℚ)
    (hsorted : times.Sorted (· < ·))
    (hlen1 : times.length = f0.length) (hlen2 : f0.length = confidence.length) :
    (∀ b ∈ createNoteBins times f0 confidence tol,
      minNoteDuration ≤ b.stop - b.start ∧ b.start < b.stop ∧ 0 < b.f0) ∧
    (createNoteBins times f0 confidence tol).Pairwise
      (fun b1 b2 => b1.stop < b2.start) := by
  unfold createNoteBins
  set v := List.zipWith (fun f c => decide (0 < f) && decide (pitchConfThreshold < c))
    f0 confidence with hv
  have hvlen : v.length = times.length := by
    rw [hv, List.length_zipWith]
    omega
  obtain ⟨hwf, hpw⟩ := voicedRuns_wf v
  have hshape : ∀ r b, r.1 < r.2 → r.2 ≤ v.length →
      ((fun r : ℕ × ℕ =>
        if times.getD (r.2 - 1) 0 - times.getD r.1 0 < minNoteDuration then none
        else
          if (pySlice f0 r.1 r.2).filter (fun x => decide (0 < x)) = [] then none
          else some (⟨times.getD r.1 0, times.getD (r.2 - 1) 0,
            npMedian ((pySlice f0 r.1 r.2).filter (fun x => decide (0 < x))), tol⟩ : NoteBin))
        r = some b) →
      b.start = times.getD r.1 0 ∧ b.stop = times.getD (r.2 - 1) 0 ∧
        minNoteDuration ≤ b.stop - b.start ∧ 0 < b.f0 := by
    intro r b hr12 hr2 hb
    dsimp only at hb
    by_cases hdur : times.getD (r.2 - 1) 0 - times.getD r.1 0 < minNoteDuration
    · rw [if_pos hdur] at hb
      exact Option.noConfusion hb
    · rw [if_neg hdur] at hb
      by_cases hemp : (pySlice f0 r.1 r.2).filter (fun x => decide (0 < x)) = []
      · rw [if_pos hemp] at hb
        exact Option.noConfusion hb
      · rw [if_neg hemp] at hb
        obtain rfl := Option.some.inj hb
        refine ⟨rfl, rfl, not_lt.mp hdur, ?_⟩
        refine npMedian_pos _ hemp ?_
        intro x hx
        have := List.of_mem_filter hx
        simpa using this
  constructor
  · intro b hb
    obtain ⟨r, hr, hrb⟩ := List.mem_filterMap.mp hb
    obtain ⟨hr12, hr2⟩ := hwf r hr
    obtain ⟨hs, he, hd, hf⟩ := hshape r b hr12 hr2 hrb
    refine ⟨hd, ?_, hf⟩
    have : (0 : ℚ) < minNoteDuration := by norm_num [minNoteDuration]
    linarith
  · rw [List.pairwise_filterMap]
    refine List.Pairwise.imp_of_mem ?_ hpw
    intro r1 r2 hm1 hm2 hle b1 hb1 b2 hb2
    obtain ⟨h112, h12⟩ := hwf r1 hm1
    obtain ⟨h212, h22⟩ := hwf r2 hm2
    obtain ⟨hs1, he1, _, _⟩ := hshape r1 b1 h112 h12 hb1
    obtain ⟨hs2, he2, _, _⟩ := hshape r2 b2 h212 h22 hb2
    rw [he1, hs2]
    apply sorted_getD_lt times hsorted
    · omega
    · omega

/-- Claim C3 witness: a single voiced run of duration exactly the
minimum note duration. -/
theorem c3_note_bins_valid_witness :
    List.Sorted (· < ·) ([0, 1/10, 2/10, 3/10] : List ℚ) ∧
    (([0, 1/10, 2/10, 3/10] : List ℚ).length = ([100, 100, 100, 0] : List ℚ).length) ∧
    (([100, 100, 100, 0] : List ℚ).length = ([1, 1, 1, 1] : List ℚ).length) ∧
    ((∀ b ∈ createNoteBins [0, 1/10, 2/10, 3/10] [100, 100, 100, 0] [1, 1, 1, 1] 40,
      minNoteDuration ≤ b.stop - b.start ∧ b.start < b.stop ∧ 0 < b.f0) ∧
    (createNoteBins [0, 1/10, 2/10, 3/10] [100, 100, 100, 0] [1, 1, 1, 1] 40).Pairwise
      (fun b1 b2 => b1.stop < b2.start)) :=
  ⟨by with_unfolding_all decide, by decide, by decide,
    c3_note_bins_valid [0, 1/10, 2/10, 3/10] [100, 100, 100, 0] [1, 1, 1, 1] 40
      (by with_unfolding_all decide) (by decide) (by decide)⟩

/-- `np.linspace(0, n-1, n)` is exactly the cast of `range n`. -/
theorem linspace_cast_range (n : ℕ) :
    linspace 0 ((n : ℚ) - 1) n = (List.range n).map (fun i : ℕ => (i : ℚ)) := by
  match n with
  | 0 => rfl
  | 1 =>
    simp [linspace, List.range_succ]
  | m + 2 =>
    show (List.range (m + 2)).map _ = _
    refine List.map_eq_map_iff.mpr ?_
    intro i _
    have hne : ((m + 2 : ℕ) : ℚ) - 1 ≠ 0 := by
      have hm : (0 : ℚ) ≤ (m : ℚ) := Nat.cast_nonneg m
      push_cast
      intro h
      linarith
    rw [mul_div_assoc, sub_zero, div_self hne]
    ring

/-- `np.interp` evaluated exactly at the `k`-th knot of a strictly
increasing knot list returns the `k`-th data value. -/
theorem npInterp_at_knot (xp : List ℚ) :
    ∀ (fp : List ℚ), xp.Sorted (· < ·) → fp.length = xp.length →
      ∀ k, k < xp.length → npInterp (xp.getD k 0) xp fp = fp.getD k 0 := by
  induction xp with
  | nil =>
    intro fp _ _ k hk
    simp at hk
  | cons x0 tl ih =>
    intro fp hs hlen k hk
    match tl, fp, hlen with
    | [], [f0], _ =>
      match k, hk with
      | 0, _ => rfl
    | x1 :: xs, f0 :: f1 :: fs, hlen =>
      have hx01 : x0 < x1 := (List.sorted_cons.mp hs).1 x1 (List.mem_cons_self _ _)
      match k, hk with
      | 0, _ =>
        show npInterp x0 _ _ = f0
        unfold npInterp
        rw [if_pos (le_refl x0)]
      | 1, _ =>
        show npInterp x1 _ _ = f1
        unfold npInterp
        rw [if_neg (not_le.mpr hx01), if_pos (le_refl x1)]
        have hne : x1 - x0 ≠ 0 := sub_ne_zero.mpr (ne_of_gt hx01)
        field_simp
      | k' + 2, hk =>
        have hklt : k' + 1 < (x1 :: xs).length := by
          simpa using hk
        have hgd : ((x0 :: x1 :: xs) : List ℚ).getD (k' + 2) 0 =
            (x1 :: xs).getD (k' + 1) 0 := rfl
        rw [hgd]
        have htl : (x1 :: xs).Sorted (· < ·) := (List.sorted_cons.mp hs).2
        have hx0lt : x0 < (x1 :: xs).getD (k' + 1) 0 :=
          (List.sorted_cons.mp hs).1 _ (by
            rw [List.getD_eq_getElem _ _ hklt]
            exact List.getElem_mem hklt)
        have hx1lt : x1 < (x1 :: xs).getD (k' + 1) 0 :=
          sorted_getD_lt _ htl 0 (k' + 1) (Nat.succ_pos k') hklt
        show npInterp ((x1 :: xs).getD (k' + 1) 0) (x0 :: x1 :: xs) (f0 :: f1 :: fs) =
          (f1 :: fs).getD (k' + 1) 0
        unfold npInterp
        rw [if_neg (not_le.mpr hx0lt), if_neg (not_le.mpr hx1lt)]
        exact ih (f1 :: fs) htl (by simpa using hlen) (k' + 1) hklt

/-- Interpolating a list at the integer positions of its own index range
reproduces the list (`np.interp(linspace(0, n-1, n), arange(n), l) = l`). -/
theorem interp_cast_range_id (l : List ℚ) :
    ((List.range l.length).map (fun i : ℕ => (i : ℚ))).map
      (fun x => npInterp x ((List.range l.length).map (fun j : ℕ => (j : ℚ))) l) = l := by
  have hsorted : (((List.range l.length).map (fun j : ℕ => (j : ℚ))) : List ℚ).Sorted (· < ·) := by
    refine List.Pairwise.map _ ?_ (List.pairwise_lt_range l.length)
    intro a b hab
    exact_mod_cast hab
  have hxlen : ((List.range l.length).map (fun j : ℕ => (j : ℚ))).length = l.length := by
    simp
  have hgetD : ∀ k, k < l.length →
      ((List.range l.length).map (fun j : ℕ => (j : ℚ))).getD k 0 = (k : ℚ) := by
    intro k hk
    rw [List.getD_eq_getElem _ _ (by simpa using hk)]
    simp
  refine List.ext_getElem (by simp) ?_
  intro i h1 h2
  have hi : i < l.length := by simpa using h2
  rw [List.getElem_map, List.getElem_map, List.getElem_range]
  have := npInterp_at_knot _ l hsorted (by simp) i (by simpa using hi)
  rw [hgetD i hi] at this
  rw [this, List.getD_eq_getElem _ _ hi]

/-- On identical inputs `align_with_dtw` takes the linear branch and
returns `(times, times, 0.95)`. -/
theorem alignWithDtw_self (chroma : List (List ℚ)) (times : List ℚ) :
    alignWithDtw chroma chroma times times (1 / 10) = (times, times, 19 / 20) := by
  unfold alignWithDtw
  rw [if_pos (by
    rw [sub_self, abs_zero, zero_div]
    norm_num)]
  dsimp only
  rw [linspace_cast_range, interp_cast_range_id]

/-- Cross-term expansion of `Σ (x − y)²` over a list. -/
theorem sum_sub_sq_expand (x : ℚ) (l : List ℚ) :
    (l.map (fun y => (x - y) * (x - y))).sum =
      (l.length : ℚ) * (x * x) - 2 * x * l.sum + (l.map (fun u => u * u)).sum := by
  induction l with
  | nil => simp
  | cons z zs ih =>
    simp only [List.map_cons, List.sum_cons, List.length_cons, ih]
    push_cast
    ring

/-- The scaled variance `n·Σx² − (Σx)²` of a rational list is
nonnegative. -/
theorem variance_expr_nonneg (l : List ℚ) :
    0 ≤ (l.length : ℚ) * (l.map (fun u => u * u)).sum - l.sum * l.sum := by
  induction l with
  | nil => simp
  | cons x xs ih =>
    have hexp : ((x :: xs).length : ℚ) * ((x :: xs).map (fun u => u * u)).sum -
        (x :: xs).sum * (x :: xs).sum =
        ((xs.length : ℚ) * (xs.map (fun u => u * u)).sum - xs.sum * xs.sum) +
          (xs.map (fun y => (x - y) * (x - y))).sum := by
      rw [sum_sub_sq_expand]
      simp only [List.map_cons, List.sum_cons, List.length_cons]
      push_cast
      ring
    rw [hexp]
    have hnn : 0 ≤ (xs.map (fun y => (x - y) * (x - y))).sum := by
      refine List.sum_nonneg ?_
      intro q hq
      obtain ⟨y, _, rfl⟩ := List.mem_map.mp hq
      exact mul_self_nonneg _
    linarith

/-- The scaled variance is strictly positive for a strictly increasing
list with at least two elements. -/
theorem variance_expr_pos (l : List ℚ) (hs : l.Sorted (· < ·)) (h2 : 2 ≤ l.length) :
    0 < (l.length : ℚ) * (l.map (fun u => u * u)).sum - l.sum * l.sum := by
  match l, h2 with
  | x :: y :: rest, _ =>
    have hxy : x < y := (List.sorted_cons.mp hs).1 y (List.mem_cons_self _ _)
    have hexp : (((x :: y :: rest).length : ℚ) *
          ((x :: y :: rest).map (fun u => u * u)).sum -
        (x :: y :: rest).sum * (x :: y :: rest).sum) =
        (((y :: rest).length : ℚ) * ((y :: rest).map (fun u => u * u)).sum -
          (y :: rest).sum * (y :: rest).sum) +
          ((y :: rest).map (fun z => (x - z) * (x - z))).sum := by
      rw [sum_sub_sq_expand]
      simp only [List.map_cons, List.sum_cons, List.length_cons]
      push_cast
      ring
    rw [hexp]
    have h1 := variance_expr_nonneg (y :: rest)
    have hxys : 0 < (x - y) * (x - y) :=
      mul_self_pos.mpr (sub_ne_zero.mpr (ne_of_lt hxy))
    have hrest : 0 ≤ (rest.map (fun z => (x - z) * (x - z))).sum := by
      refine List.sum_nonneg ?_
      intro q hq
      obtain ⟨z, _, rfl⟩ := List.mem_map.mp hq
      exact mul_self_nonneg _
    have hsum : ((y :: rest).map (fun z => (x - z) * (x - z))).sum =
        (x - y) * (x - y) + (rest.map (fun z => (x - z) * (x - z))).sum := by
      simp
    rw [hsum]
    linarith

/-- `np.polyfit(x, x, 1)` on exactly linear, strictly increasing data
with at least two points returns slope `1` and intercept `0`. -/
theorem polyfit1_self (l : List ℚ) (hs : l.Sorted (· < ·)) (h2 : 2 ≤ l.length) :
    polyfit1 l l = (1, 0) := by
  unfold polyfit1
  dsimp only
  rw [List.zipWith_same]
  have hd := variance_expr_pos l hs h2
  rw [div_self (ne_of_gt hd), one_mul, sub_self, zero_div]

/-- The affine map with slope 1 and intercept 0 is the identity on a
list. -/
theorem map_affine_id (l : List ℚ) : l.map (fun x => (1 : ℚ) * x + 0) = l := by
  simp

/-- The R² of a perfect fit is exactly 1 (the squared-residual numerator
is 0 and `0 / d = 0` holds for every denominator). -/
theorem rSquared_self (y : List ℚ) : rSquared y y = 1 := by
  unfold rSquared zipSub sumSq
  rw [List.zipWith_same]
  have hzero : (y.map (fun a => a - a)).map (fun x => x * x) =
      (y.map (fun a => a - a)).map (fun _ => (0 : ℚ)) := by
    refine List.map_eq_map_iff.mpr ?_
    intro a ha
    obtain ⟨z, _, rfl⟩ := List.mem_map.mp ha
    rw [sub_self]
    ring
  rw [hzero]
  simp

/-- Every index produced by `pythonRange stop step` is below `stop`. -/
theorem pythonRange_mem_lt (stop step k : ℕ) (hstep : 0 < step)
    (hk : k ∈ pythonRange stop step) : k < stop := by
  unfold pythonRange at hk
  obtain ⟨m, hm, rfl⟩ := List.mem_map.mp hk
  have hmlt : m + 1 ≤ (stop + step - 1) / step := List.mem_range.mp hm
  have h1 : (m + 1) * step ≤ ((stop + step - 1) / step) * step :=
    Nat.mul_le_mul_right _ hmlt
  have h2 : ((stop + step - 1) / step) * step ≤ stop + step - 1 :=
    Nat.div_mul_le_self _ _
  have h3 : m * step + step = (m + 1) * step := by ring
  omega

/-- The merge pass preserves any property of segments that is closed
under the merged-segment construction. -/
theorem foldl_mergeStep_preserve (P : AlignmentSegment → Prop)
    (hP : ∀ s t : AlignmentSegment, P s → P t →
      P ⟨s.tk_start, t.tk_end, (t.a + s.a) / 2, (t.b + s.b) / 2,
        min t.quality s.quality⟩) :
    ∀ (l acc : List AlignmentSegment), (∀ s ∈ acc, P s) → (∀ s ∈ l, P s) →
      ∀ s ∈ l.foldl mergeStep acc, P s := by
  intro l
  induction l with
  | nil => intro acc ha _ s hs; exact ha s hs
  | cons x xs ih =>
    intro acc ha hl s hs
    rw [List.foldl_cons] at hs
    refine ih (mergeStep acc x) ?_ (fun t ht => hl t (List.mem_cons_of_mem _ ht)) s hs
    intro t ht
    have hx : P x := hl x (List.mem_cons_self _ _)
    unfold mergeStep at ht
    cases hlast : acc.getLast? with
    | none =>
      rw [hlast] at ht
      dsimp only at ht
      simp only [List.mem_singleton] at ht
      subst ht
      exact hx
    | some last =>
      rw [hlast] at ht
      dsimp only at ht
      have hlp : P last := ha last (List.mem_of_mem_getLast? hlast)
      split at ht
      · rcases List.mem_append.mp ht with ht | ht
        · exact ha t (List.dropLast_subset acc ht)
        · simp only [List.mem_singleton] at ht
          subst ht
          exact hP last x hlp hx
      · rcases List.mem_append.mp ht with ht | ht
        · exact ha t ht
        · simp only [List.mem_singleton] at ht
          subst ht
          exact hx

/-- The merge pass of `fit_piecewise_linear` preserves any property
closed under the merged-segment construction. -/
theorem mergeSegments_preserve (P : AlignmentSegment → Prop)
    (hP : ∀ s t : AlignmentSegment, P s → P t →
      P ⟨s.tk_start, t.tk_end, (t.a + s.a) / 2, (t.b + s.b) / 2,
        min t.quality s.quality⟩)
    (l : List AlignmentSegment) (hl : ∀ s ∈ l, P s) :
    ∀ s ∈ mergeSegments l, P s :=
  foldl_mergeStep_preserve P hP l [] (by simp) hl

/-- Claim C9: aligning a sequence against an identical copy of itself
(same chroma and same strictly increasing times, at least two frames)
and fitting the piecewise-linear warp yields only segments with slope
exactly 1, intercept exactly 0, and quality exactly 1 (`≈` within any
tolerance). -/
theorem c9_identity_alignment (chroma : List (List ℚ)) (times : List ℚ)
    (hs : times.Sorted (· < ·)) (h2 : 2 ≤ times.length) :
    ∀ s ∈ fitPiecewiseLinear (alignWithDtw chroma chroma times times (1 / 10)).1
        (alignWithDtw chroma chroma times times (1 / 10)).2.1 200,
      s.a = 1 ∧ s.b = 0 ∧ s.quality = 1 := by
  rw [alignWithDtw_self]
  dsimp only
  unfold fitPiecewiseLinear
  by_cases hn : times.length < 200
  · rw [if_pos hn]
    dsimp only
    intro s hsm
    rw [polyfit1_self times hs h2] at hsm
    dsimp only at hsm
    rw [map_affine_id, rSquared_self] at hsm
    simp only [List.mem_singleton] at hsm
    subst hsm
    exact ⟨rfl, rfl, rfl⟩
  · rw [if_neg hn]
    dsimp only
    refine mergeSegments_preserve _ ?_ _ ?_
    · rintro s t ⟨ha1, hb1, hq1⟩ ⟨ha2, hb2, hq2⟩
      refine ⟨?_, ?_, ?_⟩
      · show (t.a + s.a) / 2 = 1
        rw [ha1, ha2]
        norm_num
      · show (t.b + s.b) / 2 = 0
        rw [hb1, hb2]
        norm_num
      · show min t.quality s.quality = 1
        rw [hq1, hq2, min_self]
    · intro s hsm
      obtain ⟨i, hi, rfl⟩ := List.mem_map.mp hsm
      have hilt : i < times.length - 200 + 1 :=
        pythonRange_mem_lt _ _ i (by norm_num) hi
      have hin : i + 200 ≤ times.length := by omega
      have hend : min (i + 200) times.length = i + 200 := min_eq_left hin
      have hwlen : (pySlice times i (min (i + 200) times.length)).length = 200 := by
        rw [hend]
        unfold pySlice
        rw [List.length_take, List.length_drop]
        omega
      have hwsub : (pySlice times i (min (i + 200) times.length)).Sublist times := by
        unfold pySlice
        exact (List.take_sublist _ _).trans (List.drop_sublist _ _)
      have hwsorted : (pySlice times i (min (i + 200) times.length)).Sorted (· < ·) :=
        List.Pairwise.sublist hwsub hs
      dsimp only
      rw [polyfit1_self _ hwsorted (by omega)]
      dsimp only
      rw [map_affine_id, rSquared_self]
      exact ⟨rfl, rfl, rfl⟩

/-- Claim C9 witness: a two-frame sequence aligned against itself. -/
theorem c9_identity_alignment_witness :
    List.Sorted (· < ·) ([0, 1] : List ℚ) ∧ 2 ≤ ([0, 1] : List ℚ).length ∧
    ∀ s ∈ fitPiecewiseLinear (alignWithDtw [] [] [0, 1] [0, 1] (1 / 10)).1
        (alignWithDtw [] [] [0, 1] [0, 1] (1 / 10)).2.1 200,
      s.a = 1 ∧ s.b = 0 ∧ s.quality = 1 :=
  ⟨by with_unfolding_all decide, by decide,
    c9_identity_alignment [] [0, 1] (by with_unfolding_all decide) (by decide)⟩

end KaraokeSpec2Proof
